import Mathlib

/-!
# ccq: shallow embedding of `query.go`

The dictionary store of `query.go`: the header parse of `loadDict` and the lookup
path `dict.lookup`, over explicit byte lists.

Conventions of the embedding.

* A Go `[]byte` and a Go `string` are both modelled as `List UInt8`: the conversions
  `string(b)` and `[]byte(s)` keep the bytes unchanged.
* A Go function returning `(T, error)` that may also stop with a run-time panic is
  modelled as a function into `Outcome T`.
* `uint32` arithmetic is arithmetic over `Nat` reduced `% 2 ^ 32`, `uint64` arithmetic
  is reduced `% 2 ^ 64`.
* The external perfect-hash index (`mph.CHD`) is a parameter: a function from a key to
  the value bytes `Get` returns, `none` standing for Go's `nil`.
* The machine is a 64-bit little-endian one with pages of `pageSize` bytes. Memory is
  unbounded in `dict.lookup`; `dict.lookupOn` is the same method on a machine that may
  refuse the one allocation whose size is read from the file.
* Go `int` is the 64-bit signed integer: `int` arithmetic is arithmetic over `Int`
  wrapped into `[-2 ^ 63, 2 ^ 63)` by `wrapInt`, and `%` is the truncated remainder.
* The selection model of the user interface (`model`, `filtered`, `Update`, `View`,
  `saveSelected`) is embedded with its index and bounds checks; the text `View` writes
  and the file `saveSelected` appends to are left out.
-/

namespace Ccq

/-! ## Outcomes of Go calls -/

/-- Run-time panics of the Go runtime that the modelled code can raise. -/
inductive Panic where
  /-- Raised by `s[i]` with `i` not below `len(s)`: "index out of range". -/
  | indexOutOfRange
  /-- Raised by `s[a:b]` with bounds outside the slice: "slice bounds out of range". -/
  | sliceBounds
  /-- Raised by `a % b` with `b = 0`: "integer divide by zero". -/
  | divideByZero
  deriving DecidableEq, Repr

/-- Outcome of a Go call of result type `(α, error)`. -/
inductive Outcome (α : Type) where
  /-- Returned `(a, nil)`. -/
  | ok (a : α)
  /-- Returned `(nil, err)`, where `err.Error()` is `msg`. -/
  | err (msg : String)
  /-- Stopped the program with a run-time panic (nothing is returned). -/
  | panic (p : Panic)
  /-- Dereferenced memory outside the pages of the mapping (through the `unsafe.Slice`
  view of the table); what happens next is not defined by the program. -/
  | fault
  deriving DecidableEq, Repr

/-! ## Constants and structs (query.go lines 21-43, 83) -/

/-- The constant `magic = "CUNCHUQI"`, as bytes. -/
def magic : List UInt8 := [67, 85, 78, 67, 72, 85, 81, 73]

/-- The struct `hashEntry`: one slot of the hash table. -/
structure hashEntry where
  Verification : Nat
  Offset : Nat
  Count : Nat
  deriving DecidableEq, Repr

/-- The struct `Entry`. -/
structure Entry where
  Dict : List UInt8
  Def : List UInt8
  deriving DecidableEq, Repr

/-- Result of `unsafe.Sizeof(hashEntry{})`: 8 + 4 + 4 bytes, no padding. -/
def entrySize : Nat := 16

/-- The page size of the machine, as on linux/amd64: `syscall.Mmap` maps whole pages. -/
def pageSize : Nat := 4096

/-- The external `*mph.CHD`, seen through its method `Get`: the value bytes stored for
the key, `none` for Go's `nil`. -/
abbrev CHD := List UInt8 → Option (List UInt8)

/-- The table field of `dict`, a `[]hashEntry` made by `unsafe.Slice` over the mapped
file: `mem` is the bytes of the file from the address of the first slot up to the end of
the file, `len` is the length of the slice, and `fill` is the number of zero bytes that
follow the end of the file in the mapping (a mapping is made of whole pages, and the
part of the last page that lies past the end of the file reads as zero). No byte is
copied or decoded when the slice is made. -/
structure hashTable where
  mem : List UInt8
  len : Nat
  fill : Nat
  deriving DecidableEq, Repr

/-- The struct `dict`. -/
structure dict where
  chd : CHD
  table : hashTable
  pool : List UInt8

/-! ## Library functions used by the code -/

/-- Little-endian value of a byte list: the first byte is the least significant. -/
def leNat : List UInt8 → Nat
  | [] => 0
  | b :: bs => b.toNat + 256 * leNat bs

/-- Go `binary.LittleEndian.Uint32(b)`: reads `b[0..3]`; `none` stands for the
index-out-of-range panic of its bounds check `_ = b[3]` when `len(b) < 4`. -/
def LittleEndian.Uint32 (b : List UInt8) : Option Nat :=
  if b.length < 4 then none else some (leNat (b.take 4))

/-- Go `bytes.IndexByte(b, c)`: index of the first `c` in `b`, or `-1`. -/
def IndexByte : List UInt8 → UInt8 → Int
  | [], _ => -1
  | x :: xs, c =>
    if x = c then 0
    else
      let r := IndexByte xs c
      if r < 0 then -1 else r + 1

/-- Go `strings.SplitN(s, sep, n)` for a one-byte separator `sep` and `n ≥ 0`: at most
`n` substrings, the last one being the unsplit remainder. Go first lowers `n` to
`len(s) + 1` when it is larger, which changes no result, as `s` never has more than
`len(s)` separators. -/
def SplitN (s : List UInt8) (sep : UInt8) : Nat → List (List UInt8)
  | 0 => []
  | 1 => [s]
  | n + 2 =>
    let m := IndexByte s sep
    if m < 0 then [s]
    else s.take m.toNat :: SplitN (s.drop (m.toNat + 1)) sep (n + 1)

/-- The 64-bit FNV-1a offset basis (`hash/fnv`, `offset64`). -/
def offset64 : Nat := 14695981039346656037

/-- The 64-bit FNV prime (`hash/fnv`, `prime64`). -/
def prime64 : Nat := 1099511628211

/-- The value of `h := fnv.New64a(); h.Write(key); h.Sum64()`. -/
def fnv64a (key : List UInt8) : Nat :=
  key.foldl (fun h c => (h ^^^ c.toNat) * prime64 % 2 ^ 64) offset64

/-! ## The hash table view -/

/-- Decodes a `hashEntry` from its 16 bytes in memory (little-endian machine):
`Verification` at bytes 0..7, `Offset` at 8..11, `Count` at 12..15. -/
def hashEntry.ofBytes (w : List UInt8) : hashEntry :=
  { Verification := leNat (w.take 8)
    Offset := leNat ((w.drop 8).take 4)
    Count := leNat ((w.drop 12).take 4) }

/-- The Go expression `d.table[idx]`: the bounds check against the slice length, then
the read of the 16 bytes of slot `idx` from the mapped memory, which is the bytes of the
file followed by the zero bytes of the last page; a read that passes the end of the
mapping is a fault. -/
def hashTable.index (t : hashTable) (idx : Nat) : Outcome hashEntry :=
  if t.len ≤ idx then .panic .indexOutOfRange
  else if t.mem.length + t.fill < entrySize * idx + entrySize then .fault
  else
    .ok (hashEntry.ofBytes
      (((t.mem ++ List.replicate t.fill 0).drop (entrySize * idx)).take entrySize))

/-! ## `dict.lookup` (query.go lines 88-112) -/

/-- State of the loop of `lookup`: the remaining `block` and the entries in `out`. -/
structure LoopState where
  block : List UInt8
  out : List Entry
  deriving DecidableEq, Repr

/-- One iteration of the `for` loop of `lookup` (lines 104-109). -/
def lookupStep (s : LoopState) : Outcome LoopState :=
  let end' := IndexByte s.block 0
  -- `block[:end]` with `end = -1`
  if end' < 0 then .panic .sliceBounds
  else
    let parts := SplitN (s.block.take end'.toNat) 124 3
    let out :=
      match parts with
      | [_, p1, p2] => s.out ++ [{ Dict := p1, Def := p2 }]
      | _ => s.out
    .ok { block := s.block.drop (end'.toNat + 1), out := out }

/-- The loop `for i := uint32(0); i < ent.Count; i++` of `lookup`, run `count` times. -/
def lookupLoop : Nat → LoopState → Outcome (List Entry)
  | 0, s => .ok s.out
  | n + 1, s =>
    match lookupStep s with
    | .ok s' => lookupLoop n s'
    | .err e => .err e
    | .panic p => .panic p
    | .fault => .fault

/-- The method `(d *dict) lookup(key string) ([]Entry, error)` on a machine that serves
the allocation `make([]Entry, 0, ent.Count)` of line 101, which only reserves capacity
for `out`; `dict.lookupOn` is the method with that allocation. -/
def dict.lookup (d : dict) (key : List UInt8) : Outcome (List Entry) :=
  match d.chd key with
  | none => .err "not found"
  | some v =>
    match LittleEndian.Uint32 v with
    | none => .panic .indexOutOfRange
    | some idx =>
      match d.table.index idx with
      | .err e => .err e
      | .panic p => .panic p
      | .fault => .fault
      | .ok ent =>
        if fnv64a key ≠ ent.Verification then .err "hash mismatch"
        -- `d.pool[ent.Offset:]`
        else if d.pool.length < ent.Offset then .panic .sliceBounds
        else lookupLoop ent.Count { block := d.pool.drop ent.Offset, out := [] }

/-- Fatal errors of the Go runtime: they end the program at once and, unlike a panic,
cannot be recovered. -/
inductive Fatal where
  /-- Raised by an allocation the system cannot serve: "fatal error: out of memory". -/
  | outOfMemory
  deriving DecidableEq, Repr

/-- Outcome of a Go call on a machine with bounded memory: the call completes with an
`Outcome`, or the program dies of a fatal error. -/
inductive MachineOutcome (α : Type) where
  | completes (o : Outcome α)
  | fatal (f : Fatal)
  deriving DecidableEq, Repr

/-- The method `(d *dict) lookup(key string) ([]Entry, error)` with the allocation
`make([]Entry, 0, ent.Count)` of line 101: `canAlloc n` tells whether the machine serves
an allocation of capacity `n` entries at the time of the call. A capacity of 0 takes no
memory; a capacity the machine cannot serve ends the program out of memory, before
`d.pool[ent.Offset:]` and the loop. On a 64-bit machine the capacity, a `uint32`,
is never out of range for `make`. -/
def dict.lookupOn (canAlloc : Nat → Bool) (d : dict) (key : List UInt8) :
    MachineOutcome (List Entry) :=
  match d.chd key with
  | none => .completes (.err "not found")
  | some v =>
    match LittleEndian.Uint32 v with
    | none => .completes (.panic .indexOutOfRange)
    | some idx =>
      match d.table.index idx with
      | .err e => .completes (.err e)
      | .panic p => .completes (.panic p)
      | .fault => .completes .fault
      | .ok ent =>
        if fnv64a key ≠ ent.Verification then .completes (.err "hash mismatch")
        -- `make([]Entry, 0, ent.Count)`
        else if ent.Count ≠ 0 ∧ canAlloc ent.Count = false then .fatal .outOfMemory
        -- `d.pool[ent.Offset:]`
        else if d.pool.length < ent.Offset then .completes (.panic .sliceBounds)
        else
          .completes (lookupLoop ent.Count { block := d.pool.drop ent.Offset, out := [] })

/-! ## `loadDict`, from the mapped bytes on (query.go lines 59-80) -/

/-- The part of `loadDict` that follows the `syscall.Mmap` call: `data` is the mapped
file and `mphMmap` the external `mph.Mmap`. The `uint32` product `tblSz*entrySize` is
reduced `% 2 ^ 32`. The table is the `unsafe.Slice` view of `tblSz` slots that starts at
`&hashTabBytes[0]`; the mapping ends with the last page of the file. -/
def loadDict (mphMmap : List UInt8 → Outcome CHD) (data : List UInt8) : Outcome dict :=
  let p := data
  -- `p[:8]`
  if p.length < 8 then .panic .sliceBounds
  else if p.take 8 ≠ magic then .err "bad magic"
  else
    let p := p.drop 8
    -- `p[4:8]`
    if p.length < 8 then .panic .sliceBounds
    else
      match LittleEndian.Uint32 ((p.take 8).drop 4) with
      | none => .panic .indexOutOfRange
      | some tblSz =>
        -- `p[8:12]`
        if p.length < 12 then .panic .sliceBounds
        else
          match LittleEndian.Uint32 ((p.take 12).drop 8) with
          | none => .panic .indexOutOfRange
          | some chdLen =>
            let p := p.drop 12
            -- `p[:chdLen]`
            if p.length < chdLen then .panic .sliceBounds
            else
              let chdBytes := p.take chdLen
              let rest := p.drop chdLen
              -- `rest[:tblSz*entrySize]`
              if rest.length < tblSz * entrySize % 2 ^ 32 then .panic .sliceBounds
              else
                let hashTabBytes := rest.take (tblSz * entrySize % 2 ^ 32)
                let pool := rest.drop (tblSz * entrySize % 2 ^ 32)
                match mphMmap chdBytes with
                | .err e => .err e
                | .panic q => .panic q
                | .fault => .fault
                | .ok chd =>
                  -- `&hashTabBytes[0]`
                  if hashTabBytes.length = 0 then .panic .indexOutOfRange
                  else
                    .ok { chd := chd
                          table :=
                            { mem := rest
                              len := tblSz
                              fill := (pageSize - data.length % pageSize) % pageSize }
                          pool := pool }

/-! ## The selection model (query.go lines 28-31, 114-212) -/

/-- Go `int` on a 64-bit machine: the value `x` of an arithmetic operation wrapped into
`[-2 ^ 63, 2 ^ 63)`. -/
def wrapInt (x : Int) : Int :=
  (x + 9223372036854775808) % 18446744073709551616 - 9223372036854775808

/-- The Go expression `s[i]` for an `int` index `i`: `none` stands for the
index-out-of-range panic raised when `i < 0` or `i ≥ len(s)`. -/
def sliceIndex {α : Type} (s : List α) (i : Int) : Option α :=
  if i < 0 then none else s[i.toNat]?

/-- The map `bilingual`, read as `bilingual[k]`: `true` for the keys `"oxford"` and
`"wenlin"`, and `false` (the zero value) for every key that is not in the map. -/
def bilingual (k : List UInt8) : Bool :=
  k = [111, 120, 102, 111, 114, 100] || k = [119, 101, 110, 108, 105, 110]

/-- The struct `model`; the mode names are kept as Lean strings. -/
structure model where
  entries : List Entry
  mode : List String
  tabIdx : Int
  cursor : Int
  offset : Int
  height : Int
  width : Int
  deriving DecidableEq, Repr

/-- The `for _, e := range m.entries` loop of `filtered` (lines 128-132): `out` holds the
entries appended so far. -/
def filteredLoop (wantBil : Bool) : List Entry → List Entry → List Entry
  | [], out => out
  | e :: es, out =>
    if bilingual e.Dict == wantBil then filteredLoop wantBil es (out ++ [e])
    else filteredLoop wantBil es out

/-- The method `(m model) filtered() []Entry`. -/
def model.filtered (m : model) : Outcome (List Entry) :=
  -- `m.mode[m.tabIdx]`
  match sliceIndex m.mode m.tabIdx with
  | none => .panic .indexOutOfRange
  | some t =>
    if t = "all" then .ok m.entries
    else .ok (filteredLoop (decide (t = "bilingual")) m.entries [])

/-- The messages `Update` receives: a `tea.WindowSizeMsg`, a `tea.KeyMsg` whose
`String()` is `k`, or a message of another type. -/
inductive Msg where
  | WindowSizeMsg (Height Width : Int)
  | KeyMsg (k : String)
  | other
  deriving DecidableEq, Repr

/-- The `tea.Cmd` that `Update` returns: `nil` or `tea.Quit`. -/
inductive Cmd where
  | nil
  | Quit
  deriving DecidableEq, Repr

/-- The function `saveSelected` up to the choice of the entry to save (lines 199-201):
`none` when the filtered list is empty, else the entry `list[m.cursor]`. The line
appended to the study file is left out. -/
def saveSelected (m : model) : Outcome (Option Entry) :=
  match m.filtered with
  | .err e => .err e
  | .panic p => .panic p
  | .fault => .fault
  | .ok list =>
    if list.length = 0 then .ok none
    else
      match sliceIndex list m.cursor with
      | none => .panic .indexOutOfRange
      | some e => .ok (some e)

/-- The method `(m model) Update(msg tea.Msg) (tea.Model, tea.Cmd)`. -/
def model.Update (m : model) (msg : Msg) : Outcome (model × Cmd) :=
  match msg with
  | .WindowSizeMsg h w => .ok ({ m with height := h, width := w }, .nil)
  | .other => .ok (m, .nil)
  | .KeyMsg k =>
    if k = "left" ∨ k = "h" then
      if m.mode.length = 0 then .panic .divideByZero
      else
        .ok ({ m with
                tabIdx := Int.tmod (wrapInt (wrapInt (m.tabIdx - 1) + m.mode.length))
                  m.mode.length
                cursor := 0
                offset := 0 }, .nil)
    else if k = "right" ∨ k = "l" ∨ k = "tab" then
      if m.mode.length = 0 then .panic .divideByZero
      else
        .ok ({ m with
                tabIdx := Int.tmod (wrapInt (m.tabIdx + 1)) m.mode.length
                cursor := 0
                offset := 0 }, .nil)
    else if k = "up" ∨ k = "k" then
      if m.cursor > 0 then
        let cursor := wrapInt (m.cursor - 1)
        if cursor < m.offset then
          .ok ({ m with cursor := cursor, offset := wrapInt (m.offset - 1) }, .nil)
        else .ok ({ m with cursor := cursor }, .nil)
      else .ok (m, .nil)
    else if k = "down" ∨ k = "j" then
      match m.filtered with
      | .err e => .err e
      | .panic p => .panic p
      | .fault => .fault
      | .ok list =>
        if m.cursor < (list.length : Int) - 1 then
          let cursor := wrapInt (m.cursor + 1)
          let vis := wrapInt (m.height - 5)
          if cursor ≥ wrapInt (m.offset + vis) then
            .ok ({ m with cursor := cursor, offset := wrapInt (m.offset + 1) }, .nil)
          else .ok ({ m with cursor := cursor }, .nil)
        else .ok (m, .nil)
    else if k = "enter" then
      match saveSelected m with
      | .err e => .err e
      | .panic p => .panic p
      | .fault => .fault
      | .ok _ => .ok (m, .Quit)
    else if k = "q" ∨ k = "ctrl+c" then .ok (m, .Quit)
    else .ok (m, .nil)

/-- One row written by the loop of `View`: whether the row is the selected one, the
number shown, and the entry. -/
structure Row where
  selected : Bool
  number : Int
  entry : Entry
  deriving DecidableEq, Repr

/-- The loop `for i := m.offset; i < end; i++` of `View` (lines 188-193), with `n` the
number of iterations left; `list[i]` is bounds-checked. -/
def viewLoop (list : List Entry) (cursor offset : Int) : Nat → Int → List Row →
    Outcome (List Row)
  | 0, _, rows => .ok rows
  | n + 1, i, rows =>
    match sliceIndex list i with
    | none => .panic .indexOutOfRange
    | some e =>
      viewLoop list cursor offset n (i + 1)
        (rows ++ [{ selected := decide (i = cursor)
                    number := wrapInt (wrapInt (i - offset) + 1)
                    entry := e }])

/-- The method `(m model) View() string`, as the rows it writes for the entries; the
tab line and the help line, which read no entry, are left out. The loop runs
`end - m.offset` times when that is positive. -/
def model.View (m : model) : Outcome (List Row) :=
  match m.filtered with
  | .err e => .err e
  | .panic p => .panic p
  | .fault => .fault
  | .ok list =>
    let vis := max (wrapInt (m.height - 5)) 1
    let end' := min (wrapInt (m.offset + vis)) (list.length : Int)
    viewLoop list m.cursor m.offset (end' - m.offset).toNat m.offset []

/-- The model built in `main` from the entries `lookup` returned. -/
def initialModel (entries : List Entry) : model :=
  { entries := entries
    mode := ["all", "bilingual", "monolingual"]
    tabIdx := 0
    cursor := 0
    offset := 0
    height := 0
    width := 0 }

/-- The run of the program on a sequence of messages: each message is given to `Update`
and the model it returns replaces the current one. -/
def runUpdates : model → List Msg → Outcome model
  | m, [] => .ok m
  | m, msg :: msgs =>
    match m.Update msg with
    | .err e => .err e
    | .panic p => .panic p
    | .fault => .fault
    | .ok (m', _) => runUpdates m' msgs

/-! ## Specification-level reading of a record -/

/-- Invariant of the selection model over the entry list `es`: the model holds `es`
and the three modes of `main`, `tabIdx` is an index of `mode`, `0 ≤ offset ≤ cursor`,
and `cursor` is an index of the filtered list when that list is non-empty and `0`
when it is empty. -/
def Spec.SelectionInv (es : List Entry) (m : model) : Prop :=
  m.entries = es ∧ m.mode = ["all", "bilingual", "monolingual"]
    ∧ 0 ≤ m.tabIdx ∧ m.tabIdx < (m.mode.length : Int)
    ∧ 0 ≤ m.offset ∧ m.offset ≤ m.cursor
    ∧ ∃ list, m.filtered = .ok list
        ∧ (list ≠ [] → m.cursor < (list.length : Int)) ∧ (list = [] → m.cursor = 0)


/-- Specification of the second field of a record payload: the bytes between the first
and the second `|`. -/
def Spec.secondField (r : List UInt8) : List UInt8 :=
  ((r.dropWhile (· ≠ 124)).tail).takeWhile (· ≠ 124)

/-- Specification of the third field of a record payload: every byte after the second
`|` (further `|` bytes included). -/
def Spec.thirdField (r : List UInt8) : List UInt8 :=
  (((r.dropWhile (· ≠ 124)).tail).dropWhile (· ≠ 124)).tail

/-- Specification of the entry a record payload stands for: a payload with at least two
`|` separators splits into 3 parts and gives `Entry{Dict: second, Def: third}`; any
other payload gives no entry. -/
def Spec.recordEntry (r : List UInt8) : Option Entry :=
  if r.count 124 < 2 then none
  else some { Dict := Spec.secondField r, Def := Spec.thirdField r }

/-! ## The scenario of the specification -/

/-- The key `"hi"`. -/
def Scenario.key : List UInt8 := [104, 105]

/-- The pool `"x|oxford|hello\0y|wenlin|world\0"`. -/
def Scenario.pool : List UInt8 :=
  [120, 124, 111, 120, 102, 111, 114, 100, 124, 104, 101, 108, 108, 111, 0,
   121, 124, 119, 101, 110, 108, 105, 110, 124, 119, 111, 114, 108, 100, 0]

/-- The payloads `"x|oxford|hello"` and `"y|wenlin|world"` of the two records of
`Scenario.pool`. -/
def Scenario.records : List (List UInt8) :=
  [[120, 124, 111, 120, 102, 111, 114, 100, 124, 104, 101, 108, 108, 111],
   [121, 124, 119, 101, 110, 108, 105, 110, 124, 119, 111, 114, 108, 100]]

/-- The entries `[(oxford, hello), (wenlin, world)]`. -/
def Scenario.entries : List Entry :=
  [{ Dict := [111, 120, 102, 111, 114, 100], Def := [104, 101, 108, 108, 111] },
   { Dict := [119, 101, 110, 108, 105, 110], Def := [119, 111, 114, 108, 100] }]

/-- An index that knows the key `"hi"` only and maps it to the value bytes `v`. -/
def Scenario.chd (v : List UInt8) : CHD :=
  fun k => if k = Scenario.key then some v else none

/-- A store with `tableSize = 1` whose only slot has the given verification bytes,
offset bytes and count bytes, over the given pool; the index sends `"hi"` to `idx`. The
mapped memory ends with the slot. -/
def Scenario.storeWith (idx verification offset count pool : List UInt8) : dict :=
  { chd := Scenario.chd idx
    table := { mem := verification ++ offset ++ count, len := 1, fill := 0 }
    pool := pool }

/-- The 8 little-endian bytes of `fnv64a "hi" = 628919584683901914`. -/
def Scenario.checksumBytes : List UInt8 := [218, 195, 94, 181, 7, 95, 186, 8]

/-- The store of the scenario: one slot `(checksum("hi"), offset 0, count 2)` and the
pool `Scenario.pool`; the index sends `"hi"` to slot 0. -/
def Scenario.store : dict :=
  Scenario.storeWith [0, 0, 0, 0] Scenario.checksumBytes [0, 0, 0, 0] [2, 0, 0, 0]
    Scenario.pool

/-- A 20-byte file: the magic, 4 reserved bytes, `tableSize = 1`, `indexLength = 0`, and
nothing after the header. -/
def Scenario.headerOnly : List UInt8 :=
  [67, 85, 78, 67, 72, 85, 81, 73, 0, 0, 0, 0, 1, 0, 0, 0, 0, 0, 0, 0]

/-- An `mph.Mmap` that accepts every blob and gives an index that knows no key. -/
def Scenario.mphMmap : List UInt8 → Outcome CHD :=
  fun _ => .ok (fun _ => none)

/-- A 68-byte file with `tableSize = 1` and `indexLength = 2`: the magic, the reserved
bytes `09 09 09 09`, the two fields, the blob `aa bb`, the slot
`(checksum("hi"), offset 0, count 2)` and the pool of the scenario. -/
def Scenario.file : List UInt8 :=
  [67, 85, 78, 67, 72, 85, 81, 73, 9, 9, 9, 9, 1, 0, 0, 0, 2, 0, 0, 0, 170, 187,
   218, 195, 94, 181, 7, 95, 186, 8, 0, 0, 0, 0, 2, 0, 0, 0] ++ Scenario.pool

/-- An `mph.Mmap` that accepts the blob `aa bb` only, giving the index that sends `"hi"`
to slot 0, and fails on every other blob; `aa bb` stands for a serialized index that
`mph.Mmap` accepts. -/
def Scenario.mphMmapBlob : List UInt8 → Outcome CHD :=
  fun blob => if blob = [170, 187] then .ok (Scenario.chd [0, 0, 0, 0]) else .err "bad blob"

/-- A 53-byte file whose header declares `tableSize = 2 ^ 28 + 1` (bytes `01 00 00 10`)
and `indexLength = 2`: the magic, 4 reserved bytes, the two fields, the blob `aa bb`,
one 16-byte slot `(checksum("hi"), offset 0, count 1)` and the 15 bytes
`"x|oxford|hello\0"`. -/
def Scenario.wrapFile : List UInt8 :=
  [67, 85, 78, 67, 72, 85, 81, 73, 0, 0, 0, 0, 1, 0, 0, 16, 2, 0, 0, 0, 170, 187,
   218, 195, 94, 181, 7, 95, 186, 8, 0, 0, 0, 0, 1, 0, 0, 0,
   120, 124, 111, 120, 102, 111, 114, 100, 124, 104, 101, 108, 108, 111, 0]

/-- A machine that serves an allocation of up to 1000000 entries and no more. -/
def Scenario.canAlloc : Nat → Bool :=
  fun n => decide (n ≤ 1000000)

/-! ## Lemmas on the library functions -/

theorem IndexByte_of_not_mem (s : List UInt8) (c : UInt8) (h : c ∉ s) :
    IndexByte s c = -1 := by
  induction s with
  | nil => rfl
  | cons x xs ih =>
    have hx : x ≠ c := fun e => h (by simp [e])
    have hxs : c ∉ xs := fun e => h (by simp [e])
    simp [IndexByte, hx, ih hxs]

theorem IndexByte_append_cons (a t : List UInt8) (c : UInt8) (h : c ∉ a) :
    IndexByte (a ++ c :: t) c = a.length := by
  induction a with
  | nil => simp [IndexByte]
  | cons x xs ih =>
    have hx : x ≠ c := fun e => h (by simp [e])
    have hxs : c ∉ xs := fun e => h (by simp [e])
    have hnn : ¬ ((xs.length : Int) < 0) := by omega
    simp [IndexByte, hx, ih hxs, hnn]

theorem exists_first_occurrence (s : List UInt8) (c : UInt8) :
    c ∉ s ∨ ∃ a t, s = a ++ c :: t ∧ c ∉ a := by
  induction s with
  | nil => left; simp
  | cons x xs ih =>
    by_cases hx : x = c
    · right; exact ⟨[], xs, by simp [hx], by simp⟩
    · rcases ih with h | ⟨a, t, hs, ha⟩
      · left
        intro hm
        rcases List.mem_cons.mp hm with e | e
        · exact hx e.symm
        · exact h e
      · right
        refine ⟨x :: a, t, by simp [hs], ?_⟩
        intro hm
        rcases List.mem_cons.mp hm with e | e
        · exact hx e.symm
        · exact ha e

theorem SplitN_of_not_mem (s : List UInt8) (c : UInt8) (n : Nat) (h : c ∉ s) :
    SplitN s c (n + 2) = [s] := by
  simp [SplitN, IndexByte_of_not_mem s c h]

theorem SplitN_append_cons (a t : List UInt8) (c : UInt8) (n : Nat) (h : c ∉ a) :
    SplitN (a ++ c :: t) c (n + 2) = a :: SplitN t c (n + 1) := by
  have hnn : ¬ ((a.length : Int) < 0) := by omega
  simp [SplitN, IndexByte_append_cons a t c h, hnn]

theorem SplitN_three_fields (a b c : List UInt8) (ha : (124 : UInt8) ∉ a)
    (hb : (124 : UInt8) ∉ b) :
    SplitN (a ++ 124 :: (b ++ 124 :: c)) 124 3 = [a, b, c] := by
  rw [SplitN_append_cons a _ 124 1 ha, SplitN_append_cons b _ 124 0 hb]
  rfl

/-! ## Lemmas on the specification-level reading -/

theorem dropWhile_ne_append_cons (a t : List UInt8) (c : UInt8) (h : c ∉ a) :
    (a ++ c :: t).dropWhile (· ≠ c) = c :: t := by
  induction a with
  | nil => simp [List.dropWhile]
  | cons x xs ih =>
    have hx : x ≠ c := fun e => h (by simp [e])
    have hxs : c ∉ xs := fun e => h (by simp [e])
    have ih' := ih hxs
    simpa [List.dropWhile, hx] using ih'

theorem takeWhile_ne_append_cons (a t : List UInt8) (c : UInt8) (h : c ∉ a) :
    (a ++ c :: t).takeWhile (· ≠ c) = a := by
  induction a with
  | nil => simp [List.takeWhile]
  | cons x xs ih =>
    have hx : x ≠ c := fun e => h (by simp [e])
    have hxs : c ∉ xs := fun e => h (by simp [e])
    have ih' := ih hxs
    simpa [List.takeWhile, hx] using ih'

theorem count_append_cons_self (a t : List UInt8) (c : UInt8) (h : c ∉ a) :
    (a ++ c :: t).count c = t.count c + 1 := by
  simp [List.count_append, List.count_eq_zero_of_not_mem h]

theorem Spec.recordEntry_three (a b c : List UInt8) (ha : (124 : UInt8) ∉ a)
    (hb : (124 : UInt8) ∉ b) :
    Spec.recordEntry (a ++ 124 :: (b ++ 124 :: c)) = some { Dict := b, Def := c } := by
  have hcnt : ¬ (a ++ 124 :: (b ++ 124 :: c)).count 124 < 2 := by
    rw [count_append_cons_self a _ 124 ha, count_append_cons_self b _ 124 hb]
    omega
  simp only [Spec.recordEntry, hcnt, if_false, Spec.secondField, Spec.thirdField,
    dropWhile_ne_append_cons a _ 124 ha, List.tail_cons,
    takeWhile_ne_append_cons b _ 124 hb, dropWhile_ne_append_cons b _ 124 hb]

/-- The payload of a record, read by `SplitN` as in the loop body, gives the entry of
the specification-level reading. -/
theorem parts_eq_recordEntry (r : List UInt8) (out : List Entry) :
    (match SplitN r 124 3 with
      | [_, p1, p2] => out ++ [{ Dict := p1, Def := p2 }]
      | _ => out) = out ++ (Spec.recordEntry r).toList := by
  rcases exists_first_occurrence r 124 with h | ⟨a, t, rfl, ha⟩
  · have hc : r.count 124 < 2 := by rw [List.count_eq_zero_of_not_mem h]; omega
    rw [SplitN_of_not_mem r 124 1 h]
    simp only [Spec.recordEntry, hc, if_true]
    simp
  · rcases exists_first_occurrence t 124 with h | ⟨b, c, rfl, hb⟩
    · have hc : (a ++ 124 :: t).count 124 < 2 := by
        rw [count_append_cons_self a t 124 ha, List.count_eq_zero_of_not_mem h]; omega
      rw [SplitN_append_cons a t 124 1 ha, SplitN_of_not_mem t 124 0 h]
      simp only [Spec.recordEntry, hc, if_true]
      simp
    · rw [SplitN_three_fields a b c ha hb, Spec.recordEntry_three a b c ha hb]
      simp

/-! ## Lemmas on the loop of `lookup` -/

theorem lookupStep_terminated (r rest : List UInt8) (out : List Entry)
    (h0 : (0 : UInt8) ∉ r) :
    lookupStep { block := r ++ 0 :: rest, out := out }
      = .ok { block := rest, out := out ++ (Spec.recordEntry r).toList } := by
  have hnn : ¬ ((r.length : Int) < 0) := by omega
  simp only [lookupStep, IndexByte_append_cons r rest 0 h0, hnn, if_false, Int.toNat_ofNat,
    List.take_left, parts_eq_recordEntry]
  congr 2
  rw [List.drop_append_eq_append_drop]
  simp

theorem lookupStep_unterminated (block : List UInt8) (out : List Entry)
    (h0 : (0 : UInt8) ∉ block) :
    lookupStep { block := block, out := out } = .panic .sliceBounds := by
  simp [lookupStep, IndexByte_of_not_mem block 0 h0]

theorem lookupLoop_records (records : List (List UInt8)) (tail : List UInt8)
    (out : List Entry) (hnul : ∀ r ∈ records, (0 : UInt8) ∉ r) :
    lookupLoop records.length
        { block := records.foldr (fun r acc => r ++ 0 :: acc) tail, out := out }
      = .ok (out ++ records.filterMap Spec.recordEntry) := by
  induction records generalizing out with
  | nil => simp [lookupLoop]
  | cons r rs ih =>
    have hr : (0 : UInt8) ∉ r := hnul r (by simp)
    have hrs : ∀ x ∈ rs, (0 : UInt8) ∉ x := fun x hx => hnul x (by simp [hx])
    simp only [List.length_cons, List.foldr_cons, lookupLoop,
      lookupStep_terminated r _ out hr]
    rw [ih _ hrs]
    cases h : Spec.recordEntry r <;> simp [List.filterMap_cons, h]

theorem lookupLoop_too_few_terminators (n : Nat) (block : List UInt8) (out : List Entry)
    (h : block.count 0 < n) :
    lookupLoop n { block := block, out := out } = .panic .sliceBounds := by
  induction n generalizing block out with
  | zero => omega
  | succ n ih =>
    rcases exists_first_occurrence block 0 with h0 | ⟨a, t, rfl, ha⟩
    · simp [lookupLoop, lookupStep_unterminated block out h0]
    · rw [count_append_cons_self a t 0 ha] at h
      simp only [lookupLoop, lookupStep_terminated a t out ha]
      exact ih t _ (by omega)

/-! ## Lemmas on the header fields -/

theorem Uint32_of_length (l : List UInt8) (h : 4 ≤ l.length) :
    LittleEndian.Uint32 l = some (leNat (l.take 4)) := by
  have h1 : ¬ l.length < 4 := by omega
  simp [LittleEndian.Uint32, h1]

theorem Uint32_window (l : List UInt8) (i : Nat) (h : i + 4 ≤ l.length) :
    LittleEndian.Uint32 ((l.take (i + 4)).drop i) = LittleEndian.Uint32 (l.drop i) := by
  have hw : (l.take (i + 4)).drop i = (l.drop i).take 4 := by
    rw [List.drop_take]; simp
  have h2 : 4 ≤ (l.drop i).length := by
    simp only [List.length_drop]; omega
  have h1 : 4 ≤ ((l.drop i).take 4).length := by
    simp only [List.length_take]; omega
  rw [hw, Uint32_of_length _ h1, Uint32_of_length _ h2, List.take_take]
  simp

/-! ## The lookup path up to the loop -/

theorem lookup_verified_slot (d : dict) (key v : List UInt8) (idx : Nat) (ent : hashEntry)
    (hget : d.chd key = some v) (hidx : LittleEndian.Uint32 v = some idx)
    (hslot : d.table.index idx = .ok ent) (hver : ent.Verification = fnv64a key)
    (hoff : ent.Offset ≤ d.pool.length) :
    d.lookup key = lookupLoop ent.Count { block := d.pool.drop ent.Offset, out := [] } := by
  have hlt : ¬ d.pool.length < ent.Offset := by omega
  simp [dict.lookup, hget, hidx, hslot, hver, hlt]

theorem lookupOn_verified_slot (canAlloc : Nat → Bool) (d : dict) (key v : List UInt8)
    (idx : Nat) (ent : hashEntry)
    (hget : d.chd key = some v) (hidx : LittleEndian.Uint32 v = some idx)
    (hslot : d.table.index idx = .ok ent) (hver : ent.Verification = fnv64a key) :
    d.lookupOn canAlloc key
      = if ent.Count ≠ 0 ∧ canAlloc ent.Count = false then .fatal .outOfMemory
        else if d.pool.length < ent.Offset then .completes (.panic .sliceBounds)
        else .completes (lookupLoop ent.Count { block := d.pool.drop ent.Offset, out := [] }) := by
  simp [dict.lookupOn, hget, hidx, hslot, hver]

theorem lookupOn_eq_lookup (canAlloc : Nat → Bool) (d : dict) (key : List UInt8)
    (hall : ∀ n, canAlloc n = true) :
    d.lookupOn canAlloc key = .completes (d.lookup key) := by
  unfold dict.lookupOn dict.lookup
  cases d.chd key with
  | none => rfl
  | some v =>
    simp only
    cases LittleEndian.Uint32 v with
    | none => rfl
    | some idx =>
      simp only
      cases d.table.index idx with
      | err e => rfl
      | panic p => rfl
      | fault => rfl
      | ok ent =>
        simp only [hall, Bool.true_eq_false, and_false, if_false]
        split
        · rfl
        · split <;> rfl

/-! ## Claims -/

/-- C1. For every store, key and slot such that the index returns an in-range slot
index for the key, the slot's verification equals the checksum of the key and the pool
from `slot.Offset` (an offset inside or at the end of the pool) holds `slot.Count`
NUL-terminated records followed by any bytes, `lookup` returns exactly the entries of those records that split on `|` into 3 parts,
in pool order, and nothing else. -/
theorem lookup_returns_record_entries (d : dict) (key v : List UInt8) (idx : Nat)
    (ent : hashEntry) (records : List (List UInt8)) (tail : List UInt8)
    (hget : d.chd key = some v) (hidx : LittleEndian.Uint32 v = some idx)
    (hslot : d.table.index idx = .ok ent) (hver : ent.Verification = fnv64a key)
    (hoff : ent.Offset ≤ d.pool.length)
    (hcount : records.length = ent.Count)
    (hnul : ∀ r ∈ records, (0 : UInt8) ∉ r)
    (hpool : d.pool.drop ent.Offset = records.foldr (fun r acc => r ++ 0 :: acc) tail) :
    d.lookup key = .ok (records.filterMap Spec.recordEntry) := by
  rw [lookup_verified_slot d key v idx ent hget hidx hslot hver hoff, hpool, ← hcount,
    lookupLoop_records records tail [] hnul]
  simp

/-- Witness of C1: the scenario of the specification, `lookup("hi")` on the store with
one slot and the pool `"x|oxford|hello\0y|wenlin|world\0"`. -/
theorem lookup_returns_record_entries_witness :
    Scenario.store.lookup Scenario.key = .ok Scenario.entries :=
  lookup_returns_record_entries Scenario.store Scenario.key [0, 0, 0, 0] 0
    { Verification := 628919584683901914, Offset := 0, Count := 2 }
    Scenario.records [] (by decide) (by decide) (by decide) (by decide) (by decide)
    (by decide) (by decide) (by decide)

/-- C2. Record round trip: for `a`, `b` without `|` and NUL and `c` without NUL, one
loop iteration on a block starting with `a|b|c\0` finds the terminator at position
`len a + len b + len c + 2`, appends `Entry{Dict: b, Def: c}` and continues right after
the terminator, that is `len a + len b + len c + 3` bytes further, whatever follows. -/
theorem record_round_trip (a b c rest : List UInt8) (out : List Entry)
    (ha : (124 : UInt8) ∉ a) (ha0 : (0 : UInt8) ∉ a)
    (hb : (124 : UInt8) ∉ b) (hb0 : (0 : UInt8) ∉ b) (hc0 : (0 : UInt8) ∉ c) :
    IndexByte (a ++ 124 :: (b ++ 124 :: (c ++ 0 :: rest))) 0 + 1
        = (a.length + b.length + c.length + 3 : Nat)
      ∧ lookupStep { block := a ++ 124 :: (b ++ 124 :: (c ++ 0 :: rest)), out := out }
        = .ok { block := rest, out := out ++ [{ Dict := b, Def := c }] }
      ∧ (a ++ 124 :: (b ++ 124 :: (c ++ 0 :: rest))).drop
          (a.length + b.length + c.length + 3) = rest := by
  have hr0 : (0 : UInt8) ∉ a ++ 124 :: (b ++ 124 :: c) := by
    simp only [List.mem_append, List.mem_cons, not_or]
    exact ⟨ha0, by decide, hb0, by decide, hc0⟩
  have hshape : a ++ 124 :: (b ++ 124 :: (c ++ 0 :: rest))
      = (a ++ 124 :: (b ++ 124 :: c)) ++ 0 :: rest := by simp
  refine ⟨?_, ?_, ?_⟩
  · rw [hshape, IndexByte_append_cons _ rest 0 hr0]
    simp only [List.length_append, List.length_cons]
    omega
  · rw [hshape, lookupStep_terminated _ rest out hr0, Spec.recordEntry_three a b c ha hb]
    rfl
  · rw [hshape, List.drop_append_eq_append_drop]
    have hlen : (a ++ 124 :: (b ++ 124 :: c)).length = a.length + b.length + c.length + 2 := by
      simp only [List.length_append, List.length_cons]
      omega
    rw [List.drop_of_length_le (by omega), hlen]
    simp

/-- Witness of C2: the record `"a|b|c\0"` followed by the byte `z` decodes to
`Entry{Dict: "b", Def: "c"}` and consumes 6 bytes. -/
theorem record_round_trip_witness :
    IndexByte [97, 124, 98, 124, 99, 0, 122] 0 + 1 = (6 : Nat)
      ∧ lookupStep { block := [97, 124, 98, 124, 99, 0, 122], out := [] }
        = .ok { block := [122], out := [{ Dict := [98], Def := [99] }] }
      ∧ ([97, 124, 98, 124, 99, 0, 122] : List UInt8).drop 6 = [122] :=
  record_round_trip [97] [98] [99] [122] [] (by decide) (by decide) (by decide)
    (by decide) (by decide)

/-- C3. When the index returns a slot index, the slot is read and its stored
verification differs from the checksum of the key, `lookup` fails with the error
"hash mismatch", which is not the error "not found", and returns no entries; this holds
for every offset and count of the slot and with any other pool put in place of the
store's pool. -/
theorem lookup_hash_mismatch (d : dict) (key v : List UInt8) (idx : Nat) (ent : hashEntry)
    (hget : d.chd key = some v) (hidx : LittleEndian.Uint32 v = some idx)
    (hslot : d.table.index idx = .ok ent) (hver : ent.Verification ≠ fnv64a key) :
    d.lookup key = .err "hash mismatch"
      ∧ (∀ pool : List UInt8, ({ d with pool := pool } : dict).lookup key
          = .err "hash mismatch")
      ∧ (Outcome.err "hash mismatch" : Outcome (List Entry)) ≠ .err "not found" := by
  have hne : ¬ fnv64a key = ent.Verification := fun e => hver e.symm
  refine ⟨?_, ?_, by decide⟩
  · simp [dict.lookup, hget, hidx, hslot, hne]
  · intro pool
    simp [dict.lookup, hget, hidx, hslot, hne]

/-- Witness of C3: the store of the scenario with the stored verification set to 0. -/
theorem lookup_hash_mismatch_witness :
    (Scenario.storeWith [0, 0, 0, 0] [0, 0, 0, 0, 0, 0, 0, 0] [0, 0, 0, 0] [2, 0, 0, 0]
        Scenario.pool).lookup Scenario.key = .err "hash mismatch" :=
  (lookup_hash_mismatch
    (Scenario.storeWith [0, 0, 0, 0] [0, 0, 0, 0, 0, 0, 0, 0] [0, 0, 0, 0] [2, 0, 0, 0]
      Scenario.pool)
    Scenario.key [0, 0, 0, 0] 0 { Verification := 0, Offset := 0, Count := 2 }
    (by decide) (by decide) (by decide) (by decide)).1

/-- C4, counterexample: on a store with one slot whose index sends `"hi"` to slot 1,
`lookup` stops with the index-out-of-range panic of `d.table[idx]`; it does not fail
with an error value. -/
theorem lookup_corrupt_index_counterexample :
    ((Scenario.storeWith [1, 0, 0, 0] Scenario.checksumBytes [0, 0, 0, 0] [2, 0, 0, 0]
        Scenario.pool).chd Scenario.key = some [1, 0, 0, 0]
      ∧ LittleEndian.Uint32 [1, 0, 0, 0] = some 1
      ∧ (Scenario.storeWith [1, 0, 0, 0] Scenario.checksumBytes [0, 0, 0, 0] [2, 0, 0, 0]
          Scenario.pool).table.len ≤ 1
      ∧ (Scenario.storeWith [1, 0, 0, 0] Scenario.checksumBytes [0, 0, 0, 0] [2, 0, 0, 0]
          Scenario.pool).lookup Scenario.key = .panic .indexOutOfRange)
      ∧ ¬ ∃ msg, (Scenario.storeWith [1, 0, 0, 0] Scenario.checksumBytes [0, 0, 0, 0]
          [2, 0, 0, 0] Scenario.pool).lookup Scenario.key = .err msg := by
  have h : (Scenario.storeWith [1, 0, 0, 0] Scenario.checksumBytes [0, 0, 0, 0]
      [2, 0, 0, 0] Scenario.pool).lookup Scenario.key = .panic .indexOutOfRange := by
    decide
  refine ⟨⟨by decide, by decide, by decide, h⟩, ?_⟩
  rintro ⟨msg, hmsg⟩
  rw [h] at hmsg
  cases hmsg

/-- C4, amended. If the index returns a slot index that is not below the number of
slots of the table, `lookup` returns nothing: the bounds check of `d.table[idx]` stops
the program with the index-out-of-range panic, before any slot or pool byte is read. -/
theorem lookup_index_out_of_range (d : dict) (key v : List UInt8) (idx : Nat)
    (hget : d.chd key = some v) (hidx : LittleEndian.Uint32 v = some idx)
    (hrange : d.table.len ≤ idx) :
    d.lookup key = .panic .indexOutOfRange := by
  simp [dict.lookup, hget, hidx, hashTable.index, hrange]

/-- Witness of C4, amended: the one-slot store of the scenario with the index sending
`"hi"` to slot 7. -/
theorem lookup_index_out_of_range_witness :
    (Scenario.storeWith [7, 0, 0, 0] Scenario.checksumBytes [0, 0, 0, 0] [2, 0, 0, 0]
        Scenario.pool).lookup Scenario.key = .panic .indexOutOfRange :=
  lookup_index_out_of_range
    (Scenario.storeWith [7, 0, 0, 0] Scenario.checksumBytes [0, 0, 0, 0] [2, 0, 0, 0]
      Scenario.pool)
    Scenario.key [7, 0, 0, 0] 7 (by decide) (by decide) (by decide)

/-- C5, counterexample: on a machine that serves the allocation, with a verified slot of
count 1 over the pool `"ab"` (no NUL byte) `lookup` stops with the slice-bounds panic
and returns no error value; with a verified slot of offset 2 and count 0 over the same
pool, whose offset is not inside the pool, `lookup` returns the empty list. -/
theorem lookup_corrupt_block_counterexample :
    ((Scenario.storeWith [0, 0, 0, 0] Scenario.checksumBytes [0, 0, 0, 0] [1, 0, 0, 0]
        [97, 98]).lookupOn Scenario.canAlloc Scenario.key = .completes (.panic .sliceBounds)
      ∧ ¬ ∃ msg, (Scenario.storeWith [0, 0, 0, 0] Scenario.checksumBytes [0, 0, 0, 0]
          [1, 0, 0, 0] [97, 98]).lookupOn Scenario.canAlloc Scenario.key
            = .completes (.err msg))
      ∧ (Scenario.storeWith [0, 0, 0, 0] Scenario.checksumBytes [2, 0, 0, 0] [0, 0, 0, 0]
          [97, 98]).lookupOn Scenario.canAlloc Scenario.key = .completes (.ok []) := by
  have h : (Scenario.storeWith [0, 0, 0, 0] Scenario.checksumBytes [0, 0, 0, 0]
      [1, 0, 0, 0] [97, 98]).lookupOn Scenario.canAlloc Scenario.key
        = .completes (.panic .sliceBounds) := by decide
  refine ⟨⟨h, ?_⟩, by decide⟩
  rintro ⟨msg, hmsg⟩
  rw [h] at hmsg
  cases hmsg

/-- C5, amended. For a verified slot whose offset is greater than the length of the
pool, or whose block (the pool from the offset) contains fewer NUL bytes than the
slot's count, `lookup` returns neither a list nor an error value, on every machine: when
the count is not 0 and the machine cannot serve the allocation
`make([]Entry, 0, ent.Count)`, the program dies out of memory there; otherwise it stops
with the slice-bounds panic of `d.pool[ent.Offset:]` or of `block[:end]` with
`end = -1`. For a verified slot with offset equal to the length of the pool and count 0,
`lookup` returns the empty list. -/
theorem lookup_corrupt_block_stops (canAlloc : Nat → Bool) (d : dict) (key v : List UInt8)
    (idx : Nat) (ent : hashEntry)
    (hget : d.chd key = some v) (hidx : LittleEndian.Uint32 v = some idx)
    (hslot : d.table.index idx = .ok ent) (hver : ent.Verification = fnv64a key) :
    ((d.pool.length < ent.Offset ∨ (d.pool.drop ent.Offset).count 0 < ent.Count) →
        d.lookupOn canAlloc key
          = if ent.Count ≠ 0 ∧ canAlloc ent.Count = false then .fatal .outOfMemory
            else .completes (.panic .sliceBounds))
      ∧ (ent.Offset = d.pool.length → ent.Count = 0 →
          d.lookupOn canAlloc key = .completes (.ok [])) := by
  rw [lookupOn_verified_slot canAlloc d key v idx ent hget hidx hslot hver]
  constructor
  · intro hbad
    by_cases hmem : ent.Count ≠ 0 ∧ canAlloc ent.Count = false
    · rw [if_pos hmem, if_pos hmem]
    · rw [if_neg hmem, if_neg hmem]
      by_cases hoff : d.pool.length < ent.Offset
      · rw [if_pos hoff]
      · rcases hbad with h | h
        · exact absurd h hoff
        · rw [if_neg hoff, lookupLoop_too_few_terminators _ _ _ h]
  · intro hoff hcount
    have hmem : ¬ (ent.Count ≠ 0 ∧ canAlloc ent.Count = false) := fun h => h.1 hcount
    have hlt : ¬ d.pool.length < ent.Offset := by omega
    rw [if_neg hmem, if_neg hlt, hcount]
    rfl

/-- Witness of C5, amended: a verified slot of count `2 ^ 32 - 1` over the pool `"ab\0"`,
which holds one terminator only, on a machine that serves at most 1000000 entries: the
program dies out of memory. -/
theorem lookup_corrupt_block_stops_witness :
    (Scenario.storeWith [0, 0, 0, 0] Scenario.checksumBytes [0, 0, 0, 0]
        [255, 255, 255, 255] [97, 98, 0]).lookupOn Scenario.canAlloc Scenario.key
      = .fatal .outOfMemory :=
  (lookup_corrupt_block_stops Scenario.canAlloc
    (Scenario.storeWith [0, 0, 0, 0] Scenario.checksumBytes [0, 0, 0, 0]
      [255, 255, 255, 255] [97, 98, 0])
    Scenario.key [0, 0, 0, 0] 0
    { Verification := 628919584683901914, Offset := 0, Count := 4294967295 }
    (by decide) (by decide) (by decide) (by decide)).1 (Or.inr (by decide))

/-- C6. When the index reports absence for the key (`Get` returns `nil`), `lookup`
fails with the error "not found" and returns no entries, whatever the table and the
pool contain. -/
theorem lookup_not_found (d : dict) (key : List UInt8) (hget : d.chd key = none) :
    d.lookup key = .err "not found" := by
  simp [dict.lookup, hget]

/-- Witness of C6: the key `"ho"` on the store of the scenario. -/
theorem lookup_not_found_witness :
    Scenario.store.lookup [104, 111] = .err "not found" :=
  lookup_not_found Scenario.store [104, 111] (by decide)

/-- C7, counterexample: with a verified in-range slot of count 0 `lookup` succeeds with
the empty list, and so it does with a verified slot of count 1 over the pool `"ab\0"`,
whose only record has no `|`. -/
theorem lookup_nonempty_counterexample :
    (Scenario.storeWith [0, 0, 0, 0] Scenario.checksumBytes [0, 0, 0, 0] [0, 0, 0, 0]
        Scenario.pool).lookup Scenario.key = .ok []
      ∧ (Scenario.storeWith [0, 0, 0, 0] Scenario.checksumBytes [0, 0, 0, 0] [1, 0, 0, 0]
          [97, 98, 0]).lookup Scenario.key = .ok [] := by
  decide

/-- C7, amended. For every key for which the index returns an in-range slot whose
verification equals the checksum of the key, and whose block holds `slot.Count`
NUL-terminated records of which at least one has two or more `|` separators, `lookup`
succeeds with a non-empty list of entries. -/
theorem lookup_nonempty (d : dict) (key v : List UInt8) (idx : Nat)
    (ent : hashEntry) (records : List (List UInt8)) (tail : List UInt8)
    (hget : d.chd key = some v) (hidx : LittleEndian.Uint32 v = some idx)
    (hslot : d.table.index idx = .ok ent) (hver : ent.Verification = fnv64a key)
    (hoff : ent.Offset ≤ d.pool.length)
    (hcount : records.length = ent.Count)
    (hnul : ∀ r ∈ records, (0 : UInt8) ∉ r)
    (hpool : d.pool.drop ent.Offset = records.foldr (fun r acc => r ++ 0 :: acc) tail)
    (hgood : ∃ r ∈ records, 2 ≤ r.count 124) :
    ∃ out, d.lookup key = .ok out ∧ out ≠ [] := by
  refine ⟨records.filterMap Spec.recordEntry, ?_, ?_⟩
  · rw [lookup_verified_slot d key v idx ent hget hidx hslot hver hoff, hpool, ← hcount,
      lookupLoop_records records tail [] hnul]
    simp
  · obtain ⟨r, hr, h2⟩ := hgood
    have hsome : Spec.recordEntry r
        = some { Dict := Spec.secondField r, Def := Spec.thirdField r } := by
      have hlt : ¬ r.count 124 < 2 := by omega
      simp [Spec.recordEntry, hlt]
    have hmem : ({ Dict := Spec.secondField r, Def := Spec.thirdField r } : Entry)
        ∈ records.filterMap Spec.recordEntry :=
      List.mem_filterMap.mpr ⟨r, hr, hsome⟩
    exact List.ne_nil_of_mem hmem

/-- Witness of C7, amended: the scenario of the specification. -/
theorem lookup_nonempty_witness :
    ∃ out, Scenario.store.lookup Scenario.key = .ok out ∧ out ≠ [] :=
  lookup_nonempty Scenario.store Scenario.key [0, 0, 0, 0] 0
    { Verification := 628919584683901914, Offset := 0, Count := 2 }
    Scenario.records [] (by decide) (by decide) (by decide) (by decide) (by decide)
    (by decide) (by decide) (by decide)
    ⟨[120, 124, 111, 120, 102, 111, 114, 100, 124, 104, 101, 108, 108, 111],
      by decide, by decide⟩

/-- C8. A record whose payload has fewer than two `|` separators (the empty payload
included) adds no entry and is consumed up to and including its terminator: the
terminator is found at the payload's length, the loop iteration leaves `out` unchanged
and continues with the bytes right after the terminator; so the loop gives the same
result as on the block without that record, also when the record follows another
record `w`. -/
theorem malformed_record_skipped (r rest : List UInt8) (out : List Entry)
    (h0 : (0 : UInt8) ∉ r) (hsep : r.count 124 < 2) :
    IndexByte (r ++ 0 :: rest) 0 = r.length
      ∧ lookupStep { block := r ++ 0 :: rest, out := out }
        = .ok { block := rest, out := out }
      ∧ (∀ n, lookupLoop (n + 1) { block := r ++ 0 :: rest, out := out }
          = lookupLoop n { block := rest, out := out })
      ∧ (∀ (w : List UInt8) (n : Nat), (0 : UInt8) ∉ w →
          lookupLoop (n + 2) { block := w ++ 0 :: (r ++ 0 :: rest), out := out }
            = lookupLoop (n + 1) { block := w ++ 0 :: rest, out := out }) := by
  have hnone : Spec.recordEntry r = none := by simp [Spec.recordEntry, hsep]
  have hstep : lookupStep { block := r ++ 0 :: rest, out := out }
      = .ok { block := rest, out := out } := by
    rw [lookupStep_terminated r rest out h0, hnone]
    simp
  have hstep' : ∀ o : List Entry, lookupStep { block := r ++ 0 :: rest, out := o }
      = .ok { block := rest, out := o } := by
    intro o
    rw [lookupStep_terminated r rest o h0, hnone]
    simp
  refine ⟨IndexByte_append_cons r rest 0 h0, hstep, ?_, ?_⟩
  · intro n
    simp only [lookupLoop, hstep]
  · intro w n hw
    simp only [lookupLoop, lookupStep_terminated w _ out hw, hstep']

/-- Witness of C8: the record `"onlyonefield\0"` followed by the byte `z`. -/
theorem malformed_record_skipped_witness :
    lookupStep
        { block := [111, 110, 108, 121, 111, 110, 101, 102, 105, 101, 108, 100, 0, 122],
          out := [] }
      = .ok { block := [122], out := [] } :=
  (malformed_record_skipped [111, 110, 108, 121, 111, 110, 101, 102, 105, 101, 108, 100]
    [122] [] (by decide) (by decide)).2.1

/-- C9. For every mapped file of at least 8 bytes whose first 8 bytes are not
`"CUNCHUQI"`, the header parse of `loadDict` fails with the error "bad magic", whatever
the other bytes are and whatever `mph.Mmap` would do: no header field is read and no
store is returned. -/
theorem loadDict_bad_magic (mphMmap : List UInt8 → Outcome CHD) (data : List UInt8)
    (hlen : 8 ≤ data.length) (hmagic : data.take 8 ≠ magic) :
    loadDict mphMmap data = .err "bad magic" := by
  have hlt : ¬ data.length < 8 := by omega
  simp [loadDict, hlt, hmagic]

/-- Witness of C9: the 9-byte file `"CUNCHUQJ\0"`. -/
theorem loadDict_bad_magic_witness :
    loadDict (fun _ => .ok (fun _ => none)) [67, 85, 78, 67, 72, 85, 81, 74, 0]
      = .err "bad magic" :=
  loadDict_bad_magic (fun _ => .ok (fun _ => none)) [67, 85, 78, 67, 72, 85, 81, 74, 0]
    (by decide) (by decide)

/-- C10, counterexample: on the 20-byte file with the correct magic, `tableSize = 1`
and `indexLength = 0` (so 20 + 0 + 16 exceeds the file length), and on the 8-byte file
that holds the magic only, `loadDict` stops with the slice-bounds panic; it does not
fail with an error value. -/
theorem loadDict_truncated_counterexample :
    (Scenario.headerOnly.take 8 = magic
      ∧ LittleEndian.Uint32 (Scenario.headerOnly.drop 12) = some 1
      ∧ LittleEndian.Uint32 (Scenario.headerOnly.drop 16) = some 0
      ∧ Scenario.headerOnly.length < 20 + 0 + 1 * 16
      ∧ loadDict Scenario.mphMmap Scenario.headerOnly = .panic .sliceBounds
      ∧ loadDict Scenario.mphMmap magic = .panic .sliceBounds)
      ∧ ¬ ∃ msg, loadDict Scenario.mphMmap Scenario.headerOnly = .err msg := by
  have h : loadDict Scenario.mphMmap Scenario.headerOnly = .panic .sliceBounds := rfl
  refine ⟨⟨by decide, by decide, by decide, by decide, h, rfl⟩, ?_⟩
  rintro ⟨msg, hmsg⟩
  rw [h] at hmsg
  cases hmsg

/-- C10, amended. For every mapped file that starts with the correct magic and is
shorter than the 20-byte header, or whose header fields `tableSize` (at offset 12) and
`indexLength` (at offset 16) satisfy `tableSize * 16 < 2 ^ 32` and
`20 + indexLength + tableSize * 16` greater than the file length, `loadDict` returns
neither a store nor an error value: a slice expression stops the program with the
slice-bounds panic, whatever `mph.Mmap` would do. -/
theorem loadDict_truncated_panics (mphMmap : List UInt8 → Outcome CHD) (data : List UInt8)
    (hmagic : data.take 8 = magic)
    (hshort : data.length < 20 ∨ ∃ T L, LittleEndian.Uint32 (data.drop 12) = some T
      ∧ LittleEndian.Uint32 (data.drop 16) = some L ∧ T * 16 < 2 ^ 32
      ∧ data.length < 20 + L + T * 16) :
    loadDict mphMmap data = .panic .sliceBounds := by
  have h8 : 8 ≤ data.length := by
    have := congrArg List.length hmagic
    simp only [List.length_take, magic, List.length_cons, List.length_nil] at this
    omega
  have hlt8 : ¬ data.length < 8 := by omega
  by_cases h16 : data.length < 16
  · have : data.length - 8 < 8 := by omega
    simp [loadDict, hlt8, hmagic, this]
  · have hp8 : ¬ data.length - 8 < 8 := by omega
    have hT := Uint32_window (data.drop 8) 4 (by simp only [List.length_drop]; omega)
    simp only [List.drop_drop] at hT
    have hT' := Uint32_of_length (data.drop 12) (by simp only [List.length_drop]; omega)
    by_cases h20 : data.length < 20
    · have : data.length - 8 < 12 := by omega
      simp [loadDict, hlt8, hmagic, hp8, hT, hT', this]
    · have hp12 : ¬ data.length - 8 < 12 := by omega
      have hL := Uint32_window (data.drop 8) 8 (by simp only [List.length_drop]; omega)
      simp only [List.drop_drop] at hL
      rcases hshort with h | ⟨T, L, hTv, hLv, hwrap, hlen⟩
      · exact absurd h h20
      · simp only [loadDict, List.length_drop, hlt8, hmagic, hp8, hp12, hT, hL, hTv, hLv,
          if_false, ne_eq, not_true_eq_false, List.drop_drop]
        by_cases hc : data.length - (8 + 12) < L
        · rw [if_pos hc]
        · have hb : data.length - (8 + 12 + L) < T * entrySize % 2 ^ 32 := by
            simp only [entrySize]; omega
          rw [if_neg hc, if_pos hb]


/-- Witness of C10, amended: the 20-byte file with `tableSize = 1`, `indexLength = 0`
and no table bytes. -/
theorem loadDict_truncated_panics_witness :
    loadDict Scenario.mphMmap Scenario.headerOnly = .panic .sliceBounds :=
  loadDict_truncated_panics Scenario.mphMmap Scenario.headerOnly (by decide)
    (Or.inr ⟨1, 0, by decide, by decide, by decide, by decide⟩)

/-! ## Lemmas on `loadDict` and the table -/

theorem loadDict_of_header (mphMmap : List UInt8 → Outcome CHD) (data : List UInt8)
    (T L : Nat) (chd : CHD)
    (hmagic : data.take 8 = magic)
    (hT : LittleEndian.Uint32 (data.drop 12) = some T)
    (hL : LittleEndian.Uint32 (data.drop 16) = some L)
    (hfit : 20 + L + T * entrySize % 2 ^ 32 ≤ data.length)
    (hnz : T * entrySize % 2 ^ 32 ≠ 0)
    (hinit : mphMmap ((data.drop 20).take L) = .ok chd) :
    loadDict mphMmap data
      = .ok { chd := chd
              table :=
                { mem := data.drop (20 + L)
                  len := T
                  fill := (pageSize - data.length % pageSize) % pageSize }
              pool := data.drop (20 + L + T * entrySize % 2 ^ 32) } := by
  have hlt8 : ¬ data.length < 8 := by omega
  have hp8 : ¬ data.length - 8 < 8 := by omega
  have hp12 : ¬ data.length - 8 < 12 := by omega
  have hT' := Uint32_window (data.drop 8) 4 (by simp only [List.length_drop]; omega)
  have hL' := Uint32_window (data.drop 8) 8 (by simp only [List.length_drop]; omega)
  simp only [List.drop_drop] at hT' hL'
  have hc : ¬ data.length - (8 + 12) < L := by omega
  have hb : ¬ data.length - (8 + 12 + L) < T * entrySize % 2 ^ 32 := by omega
  have hz : ¬ (List.take (T * entrySize % 2 ^ 32) (List.drop (8 + 12 + L) data)).length = 0 := by
    simp only [List.length_take, List.length_drop]
    omega
  simp only [loadDict, List.length_drop, hlt8, hmagic, hp8, hp12, hT', hL', hT, hL,
    if_false, ne_eq, not_true_eq_false, List.drop_drop, hc, hb, hinit, hz]

theorem drop_reserved_patch (data r : List UInt8) (k : Nat) (h12 : 12 ≤ data.length)
    (hr : r.length = 4) :
    (data.take 8 ++ r ++ data.drop 12).drop (12 + k) = data.drop (12 + k) := by
  have hlen : (data.take 8 ++ r).length = 12 := by
    simp only [List.length_append, List.length_take]
    omega
  have h := @List.drop_append _ (data.take 8 ++ r) (data.drop 12) k
  rw [hlen] at h
  rw [h, List.drop_drop]

theorem window_of_mem (mem : List UInt8) (fill k : Nat) (h : k + entrySize ≤ mem.length) :
    ((mem ++ List.replicate fill 0).drop k).take entrySize = (mem.drop k).take entrySize := by
  rw [List.drop_append_of_le_length (by omega),
    List.take_append_of_le_length (by simp only [List.length_drop]; omega)]

theorem index_of_mem (mem : List UInt8) (len fill i : Nat) (hi : i < len)
    (hfit : entrySize * len ≤ mem.length) :
    hashTable.index { mem := mem, len := len, fill := fill } i
      = .ok (hashEntry.ofBytes ((mem.drop (entrySize * i)).take entrySize)) := by
  have h1 : ¬ len ≤ i := by omega
  have hw : entrySize * i + entrySize ≤ mem.length := by
    have : entrySize * i + entrySize ≤ entrySize * len := by
      simp only [entrySize]; omega
    omega
  have h2 : ¬ mem.length + fill < entrySize * i + entrySize := by omega
  simp only [hashTable.index, h1, h2, if_false, window_of_mem mem fill _ hw]

theorem lookupStep_ne_err (s : LoopState) (msg : String) : lookupStep s ≠ .err msg := by
  unfold lookupStep
  simp only
  split <;> simp

theorem lookupLoop_ne_err (n : Nat) (s : LoopState) (msg : String) :
    lookupLoop n s ≠ .err msg := by
  induction n generalizing s with
  | zero => simp [lookupLoop]
  | succ n ih =>
    unfold lookupLoop
    cases h : lookupStep s with
    | ok s' => exact ih s'
    | err e => exact absurd h (lookupStep_ne_err s e)
    | panic p => simp
    | fault => simp

theorem lookupLoop_enough_terminators (n : Nat) (block : List UInt8) (out : List Entry)
    (h : n ≤ block.count 0) :
    ∃ out', lookupLoop n { block := block, out := out } = .ok out' := by
  induction n generalizing block out with
  | zero => exact ⟨out, rfl⟩
  | succ n ih =>
    rcases exists_first_occurrence block 0 with h0 | ⟨a, t, rfl, ha⟩
    · rw [List.count_eq_zero_of_not_mem h0] at h
      omega
    · rw [count_append_cons_self a t 0 ha] at h
      simp only [lookupLoop, lookupStep_terminated a t out ha]
      exact ih t _ (by omega)

/-! ## Lemmas on the selection model -/

theorem filteredLoop_eq_filter (wantBil : Bool) (es out : List Entry) :
    filteredLoop wantBil es out = out ++ es.filter (fun e => bilingual e.Dict == wantBil) := by
  induction es generalizing out with
  | nil => simp [filteredLoop]
  | cons e es ih =>
    by_cases h : (bilingual e.Dict == wantBil) = true
    · simp [filteredLoop, h, ih, List.filter_cons]
    · simp [filteredLoop, h, ih, List.filter_cons]

theorem length_filter_add_length_filter_not (p : Entry → Bool) (es : List Entry) :
    (es.filter p).length + (es.filter (fun e => !p e)).length = es.length := by
  induction es with
  | nil => rfl
  | cons e es ih =>
    cases h : p e <;> simp [List.filter_cons, h] <;> omega

theorem wrapInt_eq (x : Int) (h1 : -9223372036854775808 ≤ x) (h2 : x < 9223372036854775808) :
    wrapInt x = x := by
  unfold wrapInt
  omega

theorem filtered_of_tab (m : model) (hmode : m.mode = ["all", "bilingual", "monolingual"])
    (h0 : 0 ≤ m.tabIdx) (h3 : m.tabIdx < 3) :
    ∃ list, m.filtered = .ok list ∧ list.length ≤ m.entries.length := by
  have hcases : m.tabIdx = 0 ∨ m.tabIdx = 1 ∨ m.tabIdx = 2 := by omega
  rcases hcases with h | h | h
  · exact ⟨m.entries, by simp [model.filtered, sliceIndex, hmode, h], le_refl _⟩
  · refine ⟨filteredLoop true m.entries [], by simp [model.filtered, sliceIndex, hmode, h], ?_⟩
    rw [filteredLoop_eq_filter]
    simpa using List.length_filter_le _ m.entries
  · refine ⟨filteredLoop false m.entries [], by simp [model.filtered, sliceIndex, hmode, h], ?_⟩
    rw [filteredLoop_eq_filter]
    simpa using List.length_filter_le _ m.entries

theorem filtered_congr (m m' : model) (he : m'.entries = m.entries) (hm : m'.mode = m.mode)
    (ht : m'.tabIdx = m.tabIdx) : m'.filtered = m.filtered := by
  simp [model.filtered, he, hm, ht]

theorem SelectionInv_reset (es : List Entry) (m : model) (t : Int)
    (hes : m.entries = es) (hmode : m.mode = ["all", "bilingual", "monolingual"])
    (ht0 : 0 ≤ t) (ht3 : t < 3) :
    Spec.SelectionInv es { m with tabIdx := t, cursor := 0, offset := 0 } := by
  obtain ⟨list, hl, _⟩ :=
    filtered_of_tab { m with tabIdx := t, cursor := 0, offset := 0 } hmode ht0 ht3
  refine ⟨hes, hmode, ht0, ?_, le_refl _, le_refl _, list, hl, ?_, fun _ => rfl⟩
  · simp only [hmode, List.length_cons, List.length_nil]
    omega
  · intro hne
    have hpos : 0 < list.length := List.length_pos.mpr hne
    simp only
    omega

theorem sliceIndex_of_lt {α : Type} (s : List α) (i : Int) (h0 : 0 ≤ i)
    (h1 : i < (s.length : Int)) : ∃ e, sliceIndex s i = some e := by
  have hn : i.toNat < s.length := by omega
  refine ⟨s.get ⟨i.toNat, hn⟩, ?_⟩
  unfold sliceIndex
  rw [if_neg (by omega)]
  exact List.getElem?_eq_getElem hn

theorem saveSelected_ok (m : model) (list : List Entry) (hl : m.filtered = .ok list)
    (ho0 : 0 ≤ m.offset) (hoc : m.offset ≤ m.cursor)
    (hne : list ≠ [] → m.cursor < (list.length : Int)) :
    ∃ sel, saveSelected m = .ok sel := by
  unfold saveSelected
  rw [hl]
  simp only
  by_cases hz : list.length = 0
  · exact ⟨none, by rw [if_pos hz]⟩
  · have hn : list ≠ [] := fun e => hz (by simp [e])
    obtain ⟨e, he⟩ := sliceIndex_of_lt list m.cursor (by omega) (hne hn)
    rw [if_neg hz, he]
    exact ⟨_, rfl⟩

theorem viewLoop_ok (list : List Entry) (cursor offset : Int) (n : Nat) (i : Int)
    (rows : List Row) (h0 : 0 ≤ i) (hb : i + (n : Int) ≤ (list.length : Int)) :
    ∃ rows', viewLoop list cursor offset n i rows = .ok rows' := by
  induction n generalizing i rows with
  | zero => exact ⟨rows, rfl⟩
  | succ n ih =>
    obtain ⟨e, he⟩ := sliceIndex_of_lt list i h0 (by omega)
    simp only [viewLoop, he]
    exact ih (i + 1) _ (by omega) (by omega)

theorem View_ok (m : model) (list : List Entry) (hl : m.filtered = .ok list)
    (ho0 : 0 ≤ m.offset) : ∃ rows, m.View = .ok rows := by
  unfold model.View
  rw [hl]
  simp only
  have hmin : min (wrapInt (m.offset + max (wrapInt (m.height - 5)) 1)) (list.length : Int)
      ≤ (list.length : Int) := min_le_right _ _
  by_cases hrun : min (wrapInt (m.offset + max (wrapInt (m.height - 5)) 1))
      (list.length : Int) ≤ m.offset
  · have hz : (min (wrapInt (m.offset + max (wrapInt (m.height - 5)) 1))
        (list.length : Int) - m.offset).toNat = 0 := by omega
    rw [hz]
    exact ⟨[], rfl⟩
  · apply viewLoop_ok _ _ _ _ _ _ ho0
    omega

theorem SelectionInv_Update (es : List Entry) (m : model) (msg : Msg)
    (hlen : es.length < 2 ^ 63) (h : Spec.SelectionInv es m) :
    ∃ m' c, m.Update msg = .ok (m', c) ∧ Spec.SelectionInv es m' := by
  obtain ⟨hes, hmode, ht0, ht3, ho0, hoc, list, hl, hne, hemp⟩ := h
  have hmlen : m.mode.length = 3 := by simp [hmode]
  rw [hmlen] at ht3
  have ht3' : m.tabIdx < 3 := by exact_mod_cast ht3
  obtain ⟨list', hl', hle⟩ := filtered_of_tab m hmode ht0 ht3'
  have hll : list' = list := by
    rw [hl] at hl'
    exact (Outcome.ok.inj hl').symm
  subst hll
  rw [hes] at hle
  have hcur : m.cursor = 0 ∨ m.cursor < (list'.length : Int) := by
    by_cases hnil : list' = []
    · exact Or.inl (hemp hnil)
    · exact Or.inr (hne hnil)
  have hlen' : (list'.length : Int) < 9223372036854775808 := by
    have : list'.length < 2 ^ 63 := lt_of_le_of_lt hle hlen
    norm_num at this
    exact_mod_cast this
  have hinv : Spec.SelectionInv es m :=
    ⟨hes, hmode, ht0, by rw [hmlen]; exact_mod_cast ht3', ho0, hoc, list', hl, hne, hemp⟩
  cases msg with
  | WindowSizeMsg hh ww =>
    refine ⟨{ m with height := hh, width := ww }, .nil, rfl, hes, hmode, ht0, ?_, ho0, hoc,
      list', ?_, hne, hemp⟩
    · rw [hmlen]; exact_mod_cast ht3'
    · rw [← hl]; exact filtered_congr _ _ rfl rfl rfl
  | other => exact ⟨m, .nil, rfl, hinv⟩
  | KeyMsg k =>
    simp only [model.Update]
    by_cases h1 : k = "left" ∨ k = "h"
    · rw [if_pos h1, if_neg (by omega)]
      refine ⟨_, _, rfl, SelectionInv_reset es m _ hes hmode ?_ ?_⟩
      · rw [hmlen]
        rcases (by omega : m.tabIdx = 0 ∨ m.tabIdx = 1 ∨ m.tabIdx = 2) with e | e | e <;>
          rw [e] <;> decide
      · rw [hmlen]
        rcases (by omega : m.tabIdx = 0 ∨ m.tabIdx = 1 ∨ m.tabIdx = 2) with e | e | e <;>
          rw [e] <;> decide
    · rw [if_neg h1]
      by_cases h2 : k = "right" ∨ k = "l" ∨ k = "tab"
      · rw [if_pos h2, if_neg (by omega)]
        refine ⟨_, _, rfl, SelectionInv_reset es m _ hes hmode ?_ ?_⟩
        · rw [hmlen]
          rcases (by omega : m.tabIdx = 0 ∨ m.tabIdx = 1 ∨ m.tabIdx = 2) with e | e | e <;>
            rw [e] <;> decide
        · rw [hmlen]
          rcases (by omega : m.tabIdx = 0 ∨ m.tabIdx = 1 ∨ m.tabIdx = 2) with e | e | e <;>
            rw [e] <;> decide
      · rw [if_neg h2]
        have htab : (m.tabIdx : Int) < (m.mode.length : Int) := by
          rw [hmlen]; exact_mod_cast ht3'
        by_cases h3 : k = "up" ∨ k = "k"
        · rw [if_pos h3]
          by_cases hc : m.cursor > 0
          · have hw : wrapInt (m.cursor - 1) = m.cursor - 1 :=
              wrapInt_eq _ (by omega) (by omega)
            rw [if_pos hc]
            simp only [hw]
            by_cases hlt : m.cursor - 1 < m.offset
            · have hw2 : wrapInt (m.offset - 1) = m.offset - 1 :=
                wrapInt_eq _ (by omega) (by omega)
              rw [if_pos hlt, hw2]
              refine ⟨_, _, rfl, hes, hmode, ht0, htab, ?_, ?_, list', ?_, ?_, ?_⟩
              · simp only; omega
              · simp only; omega
              · rw [← hl]; exact filtered_congr _ _ rfl rfl rfl
              · intro hn; simp only; omega
              · intro hn; have := hemp hn; omega
            · rw [if_neg hlt]
              refine ⟨_, _, rfl, hes, hmode, ht0, htab, ho0, ?_, list', ?_, ?_, ?_⟩
              · simp only; omega
              · rw [← hl]; exact filtered_congr _ _ rfl rfl rfl
              · intro hn; simp only; omega
              · intro hn; have := hemp hn; omega
          · rw [if_neg hc]
            exact ⟨m, .nil, rfl, hinv⟩
        · rw [if_neg h3]
          by_cases h4 : k = "down" ∨ k = "j"
          · rw [if_pos h4, hl]
            simp only
            by_cases hd : m.cursor < (list'.length : Int) - 1
            · have hw : wrapInt (m.cursor + 1) = m.cursor + 1 :=
                wrapInt_eq _ (by omega) (by omega)
              rw [if_pos hd]
              simp only [hw]
              by_cases hv : m.cursor + 1 ≥ wrapInt (m.offset + wrapInt (m.height - 5))
              · have hw2 : wrapInt (m.offset + 1) = m.offset + 1 :=
                  wrapInt_eq _ (by omega) (by omega)
                rw [if_pos hv, hw2]
                refine ⟨_, _, rfl, hes, hmode, ht0, htab, ?_, ?_, list', ?_, ?_, ?_⟩
                · simp only; omega
                · simp only; omega
                · rw [← hl]; exact filtered_congr _ _ rfl rfl rfl
                · intro hn; simp only; omega
                · intro hn; subst hn; simp at hd; omega
              · rw [if_neg hv]
                refine ⟨_, _, rfl, hes, hmode, ht0, htab, ho0, ?_, list', ?_, ?_, ?_⟩
                · simp only; omega
                · rw [← hl]; exact filtered_congr _ _ rfl rfl rfl
                · intro hn; simp only; omega
                · intro hn; subst hn; simp at hd; omega
            · rw [if_neg hd]
              exact ⟨m, .nil, rfl, hinv⟩
          · rw [if_neg h4]
            by_cases h5 : k = "enter"
            · rw [if_pos h5]
              have hsave : ∃ sel, saveSelected m = .ok sel :=
                saveSelected_ok m list' hl ho0 hoc hne
              obtain ⟨sel, hsel⟩ := hsave
              rw [hsel]
              exact ⟨m, .Quit, rfl, hinv⟩
            · rw [if_neg h5]
              by_cases h6 : k = "q" ∨ k = "ctrl+c"
              · rw [if_pos h6]
                exact ⟨m, .Quit, rfl, hinv⟩
              · rw [if_neg h6]
                exact ⟨m, .nil, rfl, hinv⟩

theorem SelectionInv_initial (es : List Entry) : Spec.SelectionInv es (initialModel es) := by
  refine ⟨rfl, rfl, le_refl _, by simp [initialModel], le_refl _, le_refl _, es, ?_, ?_,
    fun _ => rfl⟩
  · simp [model.filtered, initialModel, sliceIndex]
  · intro hne
    have hpos : 0 < es.length := List.length_pos.mpr hne
    simp only [initialModel]
    omega

theorem SelectionInv_runUpdates (es : List Entry) (msgs : List Msg) (m : model)
    (hlen : es.length < 2 ^ 63) (h : Spec.SelectionInv es m) :
    ∃ m', runUpdates m msgs = .ok m' ∧ Spec.SelectionInv es m' := by
  induction msgs generalizing m with
  | nil => exact ⟨m, rfl, h⟩
  | cons msg msgs ih =>
    obtain ⟨m1, c, hu, h1⟩ := SelectionInv_Update es m msg hlen h
    simp only [runUpdates, hu]
    exact ih m1 h1

/-! ## Claims on the file layout, the checksum and the selection model -/

/-- C11, the code at the failing input: the 53-byte file `Scenario.wrapFile` declares
`tableSize = 2 ^ 28 + 1` and `indexLength = 2`; the `uint32` product `tblSz*entrySize`
wraps to 16, `loadDict` succeeds with a table of `2 ^ 28 + 1` slots over the 31 bytes
that follow the blob and a pool that starts 16 bytes after the blob, although
`tableSize * 16 + indexLength + 12` exceeds the file size. -/
theorem loadDict_wrap_around_opens :
    Scenario.wrapFile.take 8 = magic
      ∧ LittleEndian.Uint32 (Scenario.wrapFile.drop 12) = some 268435457
      ∧ LittleEndian.Uint32 (Scenario.wrapFile.drop 16) = some 2
      ∧ Scenario.wrapFile.length = 53
      ∧ (∃ d, loadDict Scenario.mphMmapBlob Scenario.wrapFile = .ok d
          ∧ d.table.len = 268435457
          ∧ d.table.mem.length = 31
          ∧ d.pool = Scenario.wrapFile.drop 38)
      ∧ ¬ (268435457 * 16 + 2 + 12 ≤ Scenario.wrapFile.length) :=
  ⟨by decide, by decide, by decide, by decide,
    ⟨_, loadDict_of_header Scenario.mphMmapBlob Scenario.wrapFile 268435457 2
        (Scenario.chd [0, 0, 0, 0]) (by decide) (by decide) (by decide) (by decide)
        (by decide) rfl,
      rfl, by decide, by decide⟩,
    by decide⟩

/-- C12. For every file with the correct magic whose fields `T` (little-endian `uint32`
at offset 12) and `L` (at offset 16) satisfy `T ≥ 1`, `16 * T < 2 ^ 32` and
`20 + L + 16 * T ≤` file length, and whose blob (bytes `[20, 20 + L)`, the argument given
to `mph.Mmap`) initialises to `chd`: `loadDict` returns a store with that index, a table
of `T` slots where slot `i < T` is read from the 16 bytes at file offset
`20 + L + 16 * i` and every index `≥ T` is out of range, and the pool made of every byte
from offset `20 + L + 16 * T` to the end; the same store is returned when the 4 reserved
bytes at offsets 8..11 are replaced by any 4 bytes. -/
theorem loadDict_regions (mphMmap : List UInt8 → Outcome CHD) (data : List UInt8)
    (T L : Nat) (chd : CHD)
    (hmagic : data.take 8 = magic)
    (hT : LittleEndian.Uint32 (data.drop 12) = some T)
    (hL : LittleEndian.Uint32 (data.drop 16) = some L)
    (hT1 : 1 ≤ T) (hwrap : 16 * T < 2 ^ 32)
    (hfit : 20 + L + 16 * T ≤ data.length)
    (hinit : mphMmap ((data.drop 20).take L) = .ok chd) :
    ∃ d, loadDict mphMmap data = .ok d
      ∧ d.chd = chd
      ∧ d.table.len = T
      ∧ (∀ i, i < T → d.table.index i
          = .ok (hashEntry.ofBytes ((data.drop (20 + L + 16 * i)).take 16)))
      ∧ (∀ i, T ≤ i → d.table.index i = .panic .indexOutOfRange)
      ∧ d.pool = data.drop (20 + L + 16 * T)
      ∧ (∀ r : List UInt8, r.length = 4 →
          loadDict mphMmap (data.take 8 ++ r ++ data.drop 12) = .ok d) := by
  have hmod : T * entrySize % 2 ^ 32 = 16 * T := by
    simp only [entrySize]; omega
  have hopen := loadDict_of_header mphMmap data T L chd hmagic hT hL
    (by rw [hmod]; exact hfit) (by rw [hmod]; omega) hinit
  rw [hmod] at hopen
  refine ⟨_, hopen, rfl, rfl, ?_, ?_, rfl, ?_⟩
  · intro i hi
    have hmem : entrySize * T ≤ (data.drop (20 + L)).length := by
      simp only [entrySize, List.length_drop]; omega
    rw [index_of_mem (data.drop (20 + L)) T _ i hi hmem, List.drop_drop]
    rfl
  · intro i hi
    simp [hashTable.index, hi]
  · intro r hr
    have h12 : 12 ≤ data.length := by omega
    have hd0 := drop_reserved_patch data r 0 h12 hr
    have hd4 := drop_reserved_patch data r 4 h12 hr
    have hd8 := drop_reserved_patch data r 8 h12 hr
    have hdL := drop_reserved_patch data r (8 + L) h12 hr
    have hdP := drop_reserved_patch data r (8 + L + 16 * T) h12 hr
    have hlen : (data.take 8 ++ r ++ data.drop 12).length = data.length := by
      simp only [List.length_append, List.length_take, List.length_drop]
      omega
    have hmagic' : (data.take 8 ++ r ++ data.drop 12).take 8 = magic := by
      have h8 : (data.take 8).length = 8 := by
        simp only [List.length_take]; omega
      rw [List.append_assoc, List.take_append_of_le_length (by omega),
        List.take_of_length_le (by omega)]
      exact hmagic
    have hopen' := loadDict_of_header mphMmap (data.take 8 ++ r ++ data.drop 12) T L chd
      hmagic' (by rw [hd0]; exact hT) (by rw [hd4]; exact hL)
      (by rw [hmod, hlen]; exact hfit) (by rw [hmod]; omega) (by rw [hd8]; exact hinit)
    rw [hmod] at hopen'
    rw [hopen']
    have e1 : 20 + L = 12 + (8 + L) := by omega
    have e2 : 20 + L + 16 * T = 12 + (8 + L + 16 * T) := by omega
    rw [e2, e1, hdL, hdP, hlen]

/-- Witness of C12: the 68-byte file `Scenario.file` with `T = 1`, `L = 2` and the
blob `aa bb`. -/
theorem loadDict_regions_witness :
    ∃ d, loadDict Scenario.mphMmapBlob Scenario.file = .ok d
      ∧ d.chd = Scenario.chd [0, 0, 0, 0]
      ∧ d.table.len = 1
      ∧ (∀ i, i < 1 → d.table.index i
          = .ok (hashEntry.ofBytes ((Scenario.file.drop (20 + 2 + 16 * i)).take 16)))
      ∧ (∀ i, 1 ≤ i → d.table.index i = .panic .indexOutOfRange)
      ∧ d.pool = Scenario.file.drop (20 + 2 + 16 * 1)
      ∧ (∀ r : List UInt8, r.length = 4 →
          loadDict Scenario.mphMmapBlob (Scenario.file.take 8 ++ r ++ Scenario.file.drop 12)
            = .ok d) :=
  loadDict_regions Scenario.mphMmapBlob Scenario.file 1 2 (Scenario.chd [0, 0, 0, 0])
    (by decide) (by decide) (by decide) (by decide) (by decide) (by decide) rfl

/-- C14. The checksum `lookup` compares with the slot's verification is the unseeded
64-bit FNV-1a hash of the key bytes: for a slot read at the index the key maps to,
`lookup` fails with "hash mismatch" exactly when the stored verification differs from
`fnv64a key`, where `fnv64a` starts from 14695981039346656037 and takes each byte in
order with `h := ((h xor byte) * 1099511628211) mod 2 ^ 64`; so `fnv64a ""` is the
offset basis, `fnv64a "a" = 0xaf63dc4c8601ec8c` and `fnv64a "ab" ≠ fnv64a "ba"`. -/
theorem checksum_is_fnv1a (d : dict) (key v : List UInt8) (idx : Nat) (ent : hashEntry)
    (hget : d.chd key = some v) (hidx : LittleEndian.Uint32 v = some idx)
    (hslot : d.table.index idx = .ok ent) :
    (d.lookup key = .err "hash mismatch" ↔ ent.Verification ≠ fnv64a key)
      ∧ fnv64a [] = 14695981039346656037
      ∧ (∀ (k : List UInt8) (b : UInt8),
          fnv64a (k ++ [b]) = ((fnv64a k ^^^ b.toNat) * 1099511628211) % 2 ^ 64)
      ∧ fnv64a [97] = 0xaf63dc4c8601ec8c
      ∧ fnv64a [97, 98] ≠ fnv64a [98, 97] := by
  refine ⟨⟨?_, ?_⟩, rfl, ?_, by decide, by decide⟩
  · intro herr hver
    by_cases hoff : d.pool.length < ent.Offset
    · simp [dict.lookup, hget, hidx, hslot, hver, hoff] at herr
    · rw [lookup_verified_slot d key v idx ent hget hidx hslot hver (by omega)] at herr
      exact lookupLoop_ne_err _ _ _ herr
  · intro hver
    have hne : ¬ fnv64a key = ent.Verification := fun e => hver e.symm
    simp [dict.lookup, hget, hidx, hslot, hne]
  · intro k b
    simp [fnv64a, List.foldl_append, prime64]

/-- Witness of C14: the key `"hi"` on the store of the scenario, whose slot stores
`fnv64a "hi"`. -/
theorem checksum_is_fnv1a_witness :
    (Scenario.store.lookup Scenario.key = .err "hash mismatch"
        ↔ (628919584683901914 : Nat) ≠ fnv64a Scenario.key)
      ∧ fnv64a [] = 14695981039346656037
      ∧ (∀ (k : List UInt8) (b : UInt8),
          fnv64a (k ++ [b]) = ((fnv64a k ^^^ b.toNat) * 1099511628211) % 2 ^ 64)
      ∧ fnv64a [97] = 0xaf63dc4c8601ec8c
      ∧ fnv64a [97, 98] ≠ fnv64a [98, 97] :=
  checksum_is_fnv1a Scenario.store Scenario.key [0, 0, 0, 0] 0
    { Verification := 628919584683901914, Offset := 0, Count := 2 }
    (by decide) (by decide) (by decide)

/-- C16. Lookup is total on well-formed data: when the index returns `idx`, the slot
`table[idx]` is read (`idx < len(table)`), its verification equals the checksum of the
key, its offset is at most `len(pool)` and `pool[Offset:]` contains at least `Count` NUL
bytes, no index or slice expression of `lookup` panics (every scan finds a terminator)
and `lookup` returns a list with no error. -/
theorem lookup_total (d : dict) (key v : List UInt8) (idx : Nat) (ent : hashEntry)
    (hget : d.chd key = some v) (hidx : LittleEndian.Uint32 v = some idx)
    (hslot : d.table.index idx = .ok ent) (hver : ent.Verification = fnv64a key)
    (hoff : ent.Offset ≤ d.pool.length)
    (hnul : ent.Count ≤ (d.pool.drop ent.Offset).count 0) :
    idx < d.table.len ∧ ∃ out, d.lookup key = .ok out := by
  constructor
  · by_contra hge
    have hp : d.table.index idx = .panic .indexOutOfRange := by
      simp [hashTable.index, Nat.le_of_not_lt hge]
    rw [hp] at hslot
    cases hslot
  · rw [lookup_verified_slot d key v idx ent hget hidx hslot hver hoff]
    exact lookupLoop_enough_terminators _ _ _ hnul

/-- Witness of C16: the scenario of the specification. -/
theorem lookup_total_witness :
    0 < Scenario.store.table.len ∧ ∃ out, Scenario.store.lookup Scenario.key = .ok out :=
  lookup_total Scenario.store Scenario.key [0, 0, 0, 0] 0
    { Verification := 628919584683901914, Offset := 0, Count := 2 }
    (by decide) (by decide) (by decide) (by decide) (by decide) (by decide)

/-- C17. Selection-state invariant: starting from the model of `main` over an entry list
`es` (of a length that fits a Go `int`), after any sequence of messages given to
`Update` (window resizes with any height, every key, any other message) the run does not
panic and the state has the three modes and `0 ≤ tabIdx < len(mode)`,
`0 ≤ offset ≤ cursor`, and `cursor < len(filtered())` when the filtered list is
non-empty, `cursor = 0` when it is empty; `saveSelected` and `View` then run on that
state without an index-out-of-range panic. -/
theorem selection_invariant (es : List Entry) (msgs : List Msg)
    (hlen : es.length < 2 ^ 63) :
    ∃ m, runUpdates (initialModel es) msgs = .ok m
      ∧ m.entries = es
      ∧ m.mode.length = 3
      ∧ 0 ≤ m.tabIdx ∧ m.tabIdx < (m.mode.length : Int)
      ∧ 0 ≤ m.offset ∧ m.offset ≤ m.cursor
      ∧ (∃ list, m.filtered = .ok list
          ∧ (list ≠ [] → m.cursor < (list.length : Int)) ∧ (list = [] → m.cursor = 0))
      ∧ (∃ sel, saveSelected m = .ok sel)
      ∧ (∃ rows, m.View = .ok rows) := by
  obtain ⟨m, hrun, hes, hmode, ht0, ht3, ho0, hoc, list, hl, hne, hemp⟩ :=
    SelectionInv_runUpdates es msgs (initialModel es) hlen (SelectionInv_initial es)
  exact ⟨m, hrun, hes, by simp [hmode], ht0, ht3, ho0, hoc, ⟨list, hl, hne, hemp⟩,
    saveSelected_ok m list hl ho0 hoc hne, View_ok m list hl ho0⟩

/-- Witness of C17: the two entries of the scenario, a resize to height 7 and the keys
`j`, `j`, `l`, `j`, `k`, `h`. -/
theorem selection_invariant_witness :
    ∃ m, runUpdates (initialModel Scenario.entries)
        [.WindowSizeMsg 7 80, .KeyMsg "j", .KeyMsg "j", .KeyMsg "l", .KeyMsg "j",
          .KeyMsg "k", .KeyMsg "h"] = .ok m
      ∧ m.entries = Scenario.entries
      ∧ m.mode.length = 3
      ∧ 0 ≤ m.tabIdx ∧ m.tabIdx < (m.mode.length : Int)
      ∧ 0 ≤ m.offset ∧ m.offset ≤ m.cursor
      ∧ (∃ list, m.filtered = .ok list
          ∧ (list ≠ [] → m.cursor < (list.length : Int)) ∧ (list = [] → m.cursor = 0))
      ∧ (∃ sel, saveSelected m = .ok sel)
      ∧ (∃ rows, m.View = .ok rows) :=
  selection_invariant Scenario.entries _ (by decide)

/-- C18. Tab filtering partitions the entries: with the three modes of `main`,
`filtered` returns the entry list unchanged under "all", exactly the entries whose
`Dict` is "oxford" or "wenlin" under "bilingual" and exactly the other entries under
"monolingual", both in the order of the list (as sublists of it); every entry of the
list is in exactly one of the two views, and the lengths of the two views add up to the
length of the list. -/
theorem filtered_partitions (m : model)
    (hmode : m.mode = ["all", "bilingual", "monolingual"]) :
    ({ m with tabIdx := 0 } : model).filtered = .ok m.entries
      ∧ ∃ bil mono : List Entry,
        ({ m with tabIdx := 1 } : model).filtered = .ok bil
        ∧ ({ m with tabIdx := 2 } : model).filtered = .ok mono
        ∧ bil = m.entries.filter (fun e => decide (e.Dict = [111, 120, 102, 111, 114, 100]
            ∨ e.Dict = [119, 101, 110, 108, 105, 110]))
        ∧ mono = m.entries.filter (fun e => decide
            (¬ (e.Dict = [111, 120, 102, 111, 114, 100]
              ∨ e.Dict = [119, 101, 110, 108, 105, 110])))
        ∧ bil.Sublist m.entries ∧ mono.Sublist m.entries
        ∧ (∀ e ∈ m.entries, (e ∈ bil ∧ e ∉ mono) ∨ (e ∉ bil ∧ e ∈ mono))
        ∧ bil.length + mono.length = m.entries.length := by
  obtain ⟨es, mode, tabIdx, cursor, offset, height, width⟩ := m
  simp only at hmode
  subst hmode
  refine ⟨by simp [model.filtered, sliceIndex], ?_⟩
  refine ⟨es.filter (fun e => decide (e.Dict = [111, 120, 102, 111, 114, 100]
      ∨ e.Dict = [119, 101, 110, 108, 105, 110])),
    es.filter (fun e => decide (¬ (e.Dict = [111, 120, 102, 111, 114, 100]
      ∨ e.Dict = [119, 101, 110, 108, 105, 110]))), ?_, ?_, rfl, rfl,
    List.filter_sublist _, List.filter_sublist _, ?_, ?_⟩
  · simp only [model.filtered, sliceIndex, filteredLoop_eq_filter]
    simp [bilingual]
  · simp only [model.filtered, sliceIndex, filteredLoop_eq_filter]
    simp [bilingual]
  · intro e he
    simp only at he
    simp only [List.mem_filter, decide_eq_true_eq]
    tauto
  · have := length_filter_add_length_filter_not
      (fun e => decide (e.Dict = [111, 120, 102, 111, 114, 100]
        ∨ e.Dict = [119, 101, 110, 108, 105, 110])) es
    simpa using this

/-- Witness of C18: the model of `main` over a monolingual entry followed by the two
entries of the scenario. -/
theorem filtered_partitions_witness :
    ({ initialModel ({ Dict := [99, 99], Def := [120] } :: Scenario.entries) with
        tabIdx := 0 } : model).filtered
      = .ok ({ Dict := [99, 99], Def := [120] } :: Scenario.entries) :=
  (filtered_partitions (initialModel ({ Dict := [99, 99], Def := [120] } :: Scenario.entries))
    rfl).1

end Ccq
